import Mathlib

/-!
Verification of the string-sorting engine in src/main.cpp
(class StringSortTester) against its design specification.

The C++ code is shallowly embedded: byte strings become `List Char`
(all characters handled by the program are ASCII, where C++ byte order
and Lean character order agree), the in-place vector of strings becomes
a `List` transformed functionally, the counting array
`std::vector<std::size_t> count(R+2, 0)` becomes a `List Nat` of that
length, and the recursion of the two MSD radix sorts and the two ternary
quicksorts is bounded by an explicit fuel argument that is chosen
generously at every call site (the C++ recursions terminate, and every
concrete evaluation below runs with surplus fuel).

All algorithms are embedded generically over an element type `α` and a
key function `key : α → Str` giving the string that the C++ code would
compare; instantiating `α := Str, key := id` gives the literal program,
and `α := Str × Nat, key := Prod.fst` tags every element with its input
position so that stability (the spec's "tagged copies") can be stated.
-/

set_option maxRecDepth 1000000

/-- A byte string of the program, as a list of (ASCII) characters. -/
abbrev Str := List Char

/-- Convenience conversion for concrete test inputs. -/
def chs (s : String) : Str := s.toList

/-- C++ `operator<` on `std::string`: lexicographic comparison. -/
def strLt : Str → Str → Bool
  | [], [] => false
  | [], _ :: _ => true
  | _ :: _, [] => false
  | c :: a, d :: b => if c < d then true else if d < c then false else strLt a b

/-- C++ `a <= b` on `std::string`, i.e. `!(b < a)`. -/
def strLe (a b : Str) : Bool := !(strLt b a)

/-- Boolean test that a list of elements is in non-decreasing key order. -/
def isSortedKey {α : Type} (key : α → Str) : List α → Bool
  | [] => true
  | [_] => true
  | a :: b :: t => strLe (key a) (key b) && isSortedKey key (b :: t)

/-- The subsequence of elements whose key equals `k`; two runs of it being
equal is the filter formulation of stability for the key `k`. -/
def keyFilter {α : Type} (key : α → Str) (k : Str) (l : List α) : List α :=
  l.filter (fun a => decide (key a = k))

namespace StringSortTester

/-- The fixed alphabet string of charToIndex (main.cpp 160-164). -/
def alphaL : List Char :=
  ("ABCDEFGHIJKLMNOPQRSTUVWXYZabcdefghijklmnopqrstuvwxyz0123456789!@#%:;^&*()-.").toList

/-- charToIndex (main.cpp 159-167): `alpha.find(c)`, with `npos` mapped
to -1. -/
def charToIndex (c : Char) : Int :=
  match alphaL.findIdx? (fun x => x = c) with
  | some i => (i : Int)
  | none => -1

/-- charAt (main.cpp 169-171). -/
def charAt (s : Str) (d : Nat) : Int :=
  if d < s.length then charToIndex (s.getD d 'A') else -1

/-- main.cpp 156. -/
def R : Nat := 74

/-- main.cpp 157. -/
def cutoff : Nat := 15

section Generic

variable {α : Type} [Inhabited α]

/-- `arr[i]` for the in-place array model. -/
def getI (l : List α) (i : Int) : α := l.getD i.toNat default

/-- `std::swap(arr[i], arr[j])`. -/
def swapI (l : List α) (i j : Int) : List α :=
  (l.set i.toNat (getI l j)).set j.toNat (getI l i)

/-- The merge loop of mergeSortLCP (main.cpp 126-136): compares the two
heads with `<=`, one counter increment per loop iteration; once one side
is exhausted the rest is copied without touching the counter. -/
def mergeRun (key : α → Str) : List α → List α → List α × Nat
  | [], b => (b, 0)
  | x :: a, [] => (x :: a, 0)
  | x :: a, y :: b =>
    if strLe (key x) (key y) then
      let r := mergeRun key a (y :: b)
      (x :: r.1, r.2 + 1)
    else
      let r := mergeRun key (x :: a) b
      (y :: r.1, r.2 + 1)

/-- mergeSortLCP (main.cpp 117-139) acting on the slice [left, right):
a slice of size <= 1 is returned with zero comparisons; otherwise the
split point mid = (left+right)/2 lies (right-left)/2 elements into the
slice, both halves are sorted recursively and merged. Returns the sorted
slice together with the comparison count. -/
def mergeSortLCP (key : α → Str) (l : List α) : List α × Nat :=
  if l.length ≤ 1 then (l, 0)
  else
    let a := mergeSortLCP key (l.take (l.length / 2))
    let b := mergeSortLCP key (l.drop (l.length / 2))
    let m := mergeRun key a.1 b.1
    (m.1, a.2 + b.2 + m.2)
termination_by l.length
decreasing_by
  · simp only [List.length_take]
    omega
  · simp only [List.length_drop]
    omega

/-- The partition loop of ternaryQuickSort (main.cpp 146-151). The C++
pivot is a *reference* into `arr[lo]`, so every iteration compares
against the current value stored at index lo, even after that slot has
been overwritten by a swap. Returns (arr, lt, gt, comps). -/
def tqsPart (key : α → Str) : Nat → List α → Int → Int → Int → Int → List α × Int × Int × Nat
  | 0, arr, _, lt, _, gt => (arr, lt, gt, 0)
  | fuel + 1, arr, lo, lt, i, gt =>
    if i ≤ gt then
      if strLt (key (getI arr i)) (key (getI arr lo)) then
        let r := tqsPart key fuel (swapI arr lt i) lo (lt + 1) (i + 1) gt
        (r.1, r.2.1, r.2.2.1, r.2.2.2 + 1)
      else if strLt (key (getI arr lo)) (key (getI arr i)) then
        let r := tqsPart key fuel (swapI arr i gt) lo lt i (gt - 1)
        (r.1, r.2.1, r.2.2.1, r.2.2.2 + 1)
      else
        let r := tqsPart key fuel arr lo lt (i + 1) gt
        (r.1, r.2.1, r.2.2.1, r.2.2.2 + 1)
    else (arr, lt, gt, 0)

/-- ternaryQuickSort (main.cpp 141-154) on the inclusive range [lo, hi];
the partition loop gets enough fuel for its at most hi-lo+1 iterations. -/
def tqsGo (key : α → Str) : Nat → List α → Int → Int → List α × Nat
  | 0, arr, _, _ => (arr, 0)
  | fuel + 1, arr, lo, hi =>
    if lo ≥ hi then (arr, 0)
    else
      let p := tqsPart key ((hi + 2 - lo).toNat) arr lo lo (lo + 1) hi
      let a := tqsGo key fuel p.1 lo (p.2.1 - 1)
      let b := tqsGo key fuel a.1 (p.2.2.1 + 1) hi
      (b.1, p.2.2.2 + a.2 + b.2)

/-- The loop of suffixLess (main.cpp 228-238), walking the two suffizes
that start at index d: one increment per examined position, plus one
final increment for the length comparison once a suffix is exhausted.
The original total lengths are carried for that final comparison. -/
def suffixLessGo : List Char → List Char → Nat → Nat → Bool × Nat
  | x :: a, y :: b, la, lb =>
    if x < y then (true, 1)
    else if y < x then (false, 1)
    else
      let r := suffixLessGo a b la lb
      (r.1, r.2 + 1)
  | _, _, la, lb => (decide (la < lb), 1)

/-- suffixLess (main.cpp 228-238). -/
def suffixLess (a b : Str) (d : Nat) : Bool × Nat :=
  suffixLessGo (a.drop d) (b.drop d) a.length b.length

/-- The partition loop of ternaryQuickSortSuffix (main.cpp 218-223): one
increment per scanned element plus whatever the suffixLess calls add
(the second suffixLess runs only when the first returned false). The
pivot is again a C++ reference to `arr[lo]`. -/
def tqsSufPart (key : α → Str) (d : Nat) : Nat → List α → Int → Int → Int → Int → List α × Int × Int × Nat
  | 0, arr, _, lt, _, gt => (arr, lt, gt, 0)
  | fuel + 1, arr, lo, lt, i, gt =>
    if i ≤ gt then
      let c1 := suffixLess (key (getI arr i)) (key (getI arr lo)) d
      if c1.1 then
        let r := tqsSufPart key d fuel (swapI arr lt i) lo (lt + 1) (i + 1) gt
        (r.1, r.2.1, r.2.2.1, r.2.2.2 + 1 + c1.2)
      else
        let c2 := suffixLess (key (getI arr lo)) (key (getI arr i)) d
        if c2.1 then
          let r := tqsSufPart key d fuel (swapI arr i gt) lo lt i (gt - 1)
          (r.1, r.2.1, r.2.2.1, r.2.2.2 + 1 + c1.2 + c2.2)
        else
          let r := tqsSufPart key d fuel arr lo lt (i + 1) gt
          (r.1, r.2.1, r.2.2.1, r.2.2.2 + 1 + c1.2 + c2.2)
    else (arr, lt, gt, 0)

/-- ternaryQuickSortSuffix (main.cpp 213-226) on [lo, hi] at offset d. -/
def tqsSufGo (key : α → Str) (d : Nat) : Nat → List α → Int → Int → List α × Nat
  | 0, arr, _, _ => (arr, 0)
  | fuel + 1, arr, lo, hi =>
    if lo ≥ hi then (arr, 0)
    else
      let p := tqsSufPart key d ((hi + 2 - lo).toNat) arr lo lo (lo + 1) hi
      let a := tqsSufGo key d fuel p.1 lo (p.2.1 - 1)
      let b := tqsSufGo key d fuel a.1 (p.2.2.1 + 1) hi
      (b.1, p.2.2.2 + a.2 + b.2)

/-- Read of the counting array `std::vector<std::size_t> count(R+2, 0)`. -/
def cget (c : List Nat) (j : Nat) : Nat := c.getD j 0

/-- Write to the counting array. A write past the end — undefined
behaviour in C++, and never read back by either radix sort — is dropped
by `List.set`; every index the algorithm touches is recorded separately
(`levelAcc`) so the bounds claims can be settled about the real index
stream. -/
def cset (c : List Nat) (j v : Nat) : List Nat := c.set j v

/-- The bucket index used by the counting pass: charAt + 2
(main.cpp 181, 199). `charAt >= -1`, so the `Int.toNat` is exact. -/
def rankIdx2 (key : α → Str) (d : Nat) (a : α) : Nat := (charAt (key a) d + 2).toNat

/-- The bucket index used by the placement pass and the recursion loop:
charAt + 1 (main.cpp 188, 206). -/
def rankIdx1 (key : α → Str) (d : Nat) (a : α) : Nat := (charAt (key a) d + 1).toNat

/-- Counting pass (main.cpp 180-183 / 198-201): ++count[charAt+2] for
every element of the slice. -/
def countPass (key : α → Str) (d : Nat) (l : List α) : List Nat :=
  l.foldl (fun c a => cset c (rankIdx2 key d a) (cget c (rankIdx2 key d a) + 1))
    (List.replicate (R + 2) 0)

/-- Running-sum pass (main.cpp 184-185 / 202-203):
count[r+1] += count[r] for r = 0 .. R. -/
def sumPass (cnt : List Nat) : List Nat :=
  (List.range (R + 1)).foldl (fun c r => cset c (r + 1) (cget c (r + 1) + cget c r)) cnt

/-- Write into the aux buffer `std::vector<std::string> aux(right-left)`,
modelled as a map from position to element (every write of the placement
pass lands below the slice size, and only positions 0 .. n-1 are read
back by the copy-back loop). -/
def setA (f : Nat → α) (i : Nat) (x : α) : Nat → α := fun q => if q = i then x else f q

/-- One step of the placement pass: aux[count[charAt+1]++] = element. -/
def placeStep (key : α → Str) (d : Nat) (st : List Nat × (Nat → α)) (a : α) :
    List Nat × (Nat → α) :=
  let j := rankIdx1 key d a
  (cset st.1 j (cget st.1 j + 1), setA st.2 (cget st.1 j) a)

/-- Placement pass (main.cpp 186-188 / 204-206): aux starts as a
default-initialised buffer. -/
def placePass (key : α → Str) (d : Nat) (cnt : List Nat) (l : List α) :
    List Nat × (Nat → α) :=
  l.foldl (placeStep key d) (cnt, fun _ => default)

/-- Copy-back (main.cpp 189-190 / 207-208): the slice is overwritten with
aux[0 .. n). -/
def readOut (aux : Nat → α) (n : Nat) : List α := (List.range n).map aux

/-- Result of one radix-sort call: the rewritten slice, the comparison
count, and the stream of indices with which the counting array (of
length R + 2) was subscripted. -/
structure RadixOut (α : Type) where
  arr : List α
  comps : Nat
  acc : List Nat
deriving DecidableEq

/-- One iteration of the recursion loop (main.cpp 191-192 / 209-210):
read the sub-range bounds count[r] and count[r+1] from the
post-placement counting array, recurse (via `go`) into that sub-range of
the current sequence, and put the result back in place. -/
def radixStep (cnt2 : List Nat) (go : List α → RadixOut α) (acc : RadixOut α) (r : Nat) :
    RadixOut α :=
  let lo := cget cnt2 r
  let len := cget cnt2 (r + 1) - lo
  let sub := go ((acc.arr.drop lo).take len)
  ⟨acc.arr.take lo ++ sub.arr ++ acc.arr.drop (lo + len),
    acc.comps + sub.comps, acc.acc ++ [r, r + 1] ++ sub.acc⟩

/-- The counting-array indices touched by one radix level, in pass order:
the counting pass writes charAt+2 per element, the running-sum pass
reads r and r+1 for r = 0..R, the placement pass indexes charAt+1 per
element, and the recursion loop reads r and r+1 for r = 0..R-1. -/
def levelAcc (key : α → Str) (d : Nat) (l : List α) : List Nat :=
  l.map (rankIdx2 key d) ++ (List.range (R + 1) ++ (List.range (R + 1)).map (· + 1)) ++
    l.map (rankIdx1 key d)

/-- msdRadixSortPure (main.cpp 195-211) on a slice, with fuel bounding the
recursion depth. A slice of size <= 1 returns immediately; otherwise the
three passes run and the algorithm recurses into the sub-slices
[count[r], count[r+1]) for r = 0 .. R-1, reading the counting array in
its post-placement state, exactly as the C++ does. -/
def msdPureGo (key : α → Str) : Nat → List α → Nat → RadixOut α
  | 0, l, _ => ⟨l, 0, []⟩
  | fuel + 1, l, d =>
    if l.length ≤ 1 then ⟨l, 0, []⟩
    else
      let st := placePass key d (sumPass (countPass key d l)) l
      (List.range R).foldl
        (radixStep st.1 (fun s => msdPureGo key fuel s (d + 1)))
        ⟨readOut st.2 l.length, l.length, levelAcc key d l⟩

/-- msdRadixSort (main.cpp 173-193): identical to the pure version except
that a slice of size <= cutoff (and >= 2) is finished by
ternaryQuickSortSuffix on [left, right-1] at offset d. -/
def msdCutGo (key : α → Str) : Nat → List α → Nat → RadixOut α
  | 0, l, _ => ⟨l, 0, []⟩
  | fuel + 1, l, d =>
    if l.length ≤ 1 then ⟨l, 0, []⟩
    else if l.length ≤ cutoff then
      let p := tqsSufGo key d (l.length + 1) l 0 ((l.length : Int) - 1)
      ⟨p.1, p.2, []⟩
    else
      let st := placePass key d (sumPass (countPass key d l)) l
      (List.range R).foldl
        (radixStep st.1 (fun s => msdCutGo key fuel s (d + 1)))
        ⟨readOut st.2 l.length, l.length, levelAcc key d l⟩

/-- Recursion-depth budget for the radix sorts: the depth argument d grows
by one per level and every slice recursed into only holds strings of
length > d, so total key length plus two levels is always enough. -/
def radixFuel (key : α → Str) (l : List α) : Nat :=
  (l.map (fun a => (key a).length)).sum + 2

/-- Top-level msdRadixSortPure call (main.cpp 100). -/
def msdRadixSortPure (key : α → Str) (l : List α) : RadixOut α :=
  msdPureGo key (radixFuel key l) l 0

/-- Top-level msdRadixSort call (main.cpp 97). -/
def msdRadixSort (key : α → Str) (l : List α) : RadixOut α :=
  msdCutGo key (radixFuel key l) l 0

/-- Modelled from the spec (section 4.1): the StdQuick branch delegates to
`std::sort`, whose body is external to this repository; the spec only
requires a deterministic generic comparison sort that charges one
counter increment per invocation of the ordering predicate `a < b`. It
is modelled as an insertion sort with exactly that counting rule. -/
def insertCounted (key : α → Str) (x : α) : List α → List α × Nat
  | [] => ([x], 0)
  | y :: t =>
    if strLt (key x) (key y) then (x :: y :: t, 1)
    else
      let r := insertCounted key x t
      (y :: r.1, r.2 + 1)

/-- Modelled from the spec (section 4.1), see `insertCounted`. -/
def stdSortCounted (key : α → Str) (l : List α) : List α × Nat :=
  l.foldl (fun st x =>
    let r := insertCounted key x st.1
    (r.1, st.2 + r.2)) ([], 0)

/-- The argument `arr.size() - 1` passed to ternaryQuickSort in run
(main.cpp 94): the subtraction happens in `std::size_t` (wrapping at
2^64) and the result is converted to `int`, a 32-bit two's-complement
narrowing; for an empty sequence this yields -1. -/
def sizeMinusOne (n : Nat) : Int :=
  let w : Nat := (n + (2 ^ 64 - 1)) % 2 ^ 64
  let v : Nat := w % 2 ^ 32
  if v < 2 ^ 31 then (v : Int) else (v : Int) - 2 ^ 32

/-- The algorithm selector (main.cpp 77). The spec names the five values
GeneralComparisonSort, PrefixMergeSort, TernaryQuickSort, MsdRadixCutoff
and MsdRadixPure. -/
inductive Algo
  | StdQuick
  | StdMergeLCP
  | TernaryQuick
  | MsdRadix
  | MsdRadixPure
deriving DecidableEq

/-- run (main.cpp 79-106): sets comps = 0 — discarding the incoming
counter state c0 of the engine — dispatches on the selector, and returns
the sorted sequence together with the final counter value. The elapsed
wall-clock time of the result record is not modelled. -/
def run (key : α → Str) (algo : Algo) (arr : List α) (_c0 : Nat) : List α × Nat :=
  let _comps := 0
  match algo with
  | .StdQuick => stdSortCounted key arr
  | .StdMergeLCP => mergeSortLCP key arr
  | .TernaryQuick => tqsGo key (arr.length + 1) arr 0 (sizeMinusOne arr.length)
  | .MsdRadix =>
    let r := msdRadixSort key arr
    (r.arr, r.comps)
  | .MsdRadixPure =>
    let r := msdRadixSortPure key arr
    (r.arr, r.comps)

/-- The stream of counting-array indices the radix run of a selector
accesses, in program order (empty for the three non-radix selectors,
which never touch a counting array). An execution is within the C++
program's guarantees only if every index of this stream is below R + 2,
the size of the counting array: an execution whose stream leaves that
bound performs an out-of-bounds access on the 76-entry array — undefined
behaviour, see C2 — and the program then guarantees nothing, so theorems
about the radix selectors are stated under this bound. -/
def radixAcc (key : α → Str) (algo : Algo) (l : List α) : List Nat :=
  match algo with
  | .MsdRadix => (msdRadixSort key l).acc
  | .MsdRadixPure => (msdRadixSortPure key l).acc
  | _ => []

end Generic

/-- Spec-side definition (sections 4.4 and 4.3's "ended string sorts
first" rule): the number of leading positions at which two suffixes
agree; suffixLess examines exactly these positions plus one more. -/
def lcpLen : List Char → List Char → Nat
  | x :: a, y :: b => if x = y then lcpLen a b + 1 else 0
  | _, _ => 0

/-- Sortedness by key (proof-side). -/
def SortedK {α : Type} (key : α → Str) (l : List α) : Prop :=
  List.Pairwise (fun a b => strLe (key a) (key b) = true) l

/-- Number of elements of the slice whose placement bucket index is
strictly below j (proof-side): the start offset of bucket j. -/
def SCnt {α : Type} (key : α → Str) (d : Nat) (l : List α) (j : Nat) : Nat :=
  List.countP (fun a => decide (rankIdx1 key d a < j)) l

/-- Number of elements of the slice in placement bucket j (proof-side). -/
def TCnt {α : Type} (key : α → Str) (d : Nat) (l : List α) (j : Nat) : Nat :=
  List.countP (fun a => decide (rankIdx1 key d a = j)) l

/-- The elements of the slice in placement bucket j, in slice order
(proof-side). -/
def buckF {α : Type} (key : α → Str) (d : Nat) (l : List α) (j : Nat) : List α :=
  l.filter (fun a => decide (rankIdx1 key d a = j))

end StringSortTester

namespace StringSortTester

/-! ## Basic facts about the character-to-rank mapping -/

theorem findIdxQNone (c : Char) : ∀ (l : List Char), c ∉ l →
    l.findIdx? (fun x => x = c) = none := by
  intro l
  induction l with
  | nil => intro _; rfl
  | cons x xs ih =>
    intro h
    have hx : ¬ (x = c) := fun he => h (he ▸ List.mem_cons_self x xs)
    have hxs : c ∉ xs := fun hm => h (List.mem_cons_of_mem x hm)
    simp [List.findIdx?_cons, hx, ih hxs]

/-- Claim C1 (counterexample): the alphabet table does not have 74
characters and its ranks are not confined to 0..73 — the character '.'
is in the table and is mapped to rank 74, and the table holds 75
characters. -/
theorem C1_counterexample :
    '.' ∈ alphaL ∧ charToIndex '.' = 74 ∧
    ¬ (alphaL.length = 74) ∧ ¬ (charToIndex '.' ≤ 73) := by
  decide

/-- Claim C1 (amended): the table holds exactly 75 recognized characters;
the i-th table character is mapped to the dense rank i (0..74); a
character absent from the table is mapped to -1; a position at or past
the end of the string is mapped to -1, and an in-range position is
mapped through charToIndex. -/
theorem C1_charToIndex_dense :
    alphaL.length = 75 ∧
    (∀ i, i < alphaL.length → charToIndex (alphaL.getD i 'A') = i) ∧
    (∀ c : Char, c ∉ alphaL → charToIndex c = -1) ∧
    (∀ (s : Str) (d : Nat), s.length ≤ d → charAt s d = -1) ∧
    (∀ (s : Str) (d : Nat), d < s.length → charAt s d = charToIndex (s.getD d 'A')) := by
  refine ⟨by decide, by decide, ?_, ?_, ?_⟩
  · intro c hc
    unfold charToIndex
    rw [findIdxQNone c alphaL hc]
  · intro s d h
    unfold charAt
    rw [if_neg (by omega)]
  · intro s d h
    unfold charAt
    rw [if_pos h]

/-- Witness for C1_charToIndex_dense at concrete inputs. -/
theorem C1_witness :
    alphaL.length = 75 ∧ charToIndex (alphaL.getD 74 'A') = 74 ∧
    charToIndex ' ' = -1 ∧ charAt (chs "AB") 2 = -1 ∧
    charAt (chs "AB") 1 = charToIndex 'B' := by
  refine ⟨C1_charToIndex_dense.1, C1_charToIndex_dense.2.1 74 (by decide),
    C1_charToIndex_dense.2.2.1 ' ' (by decide),
    C1_charToIndex_dense.2.2.2.1 (chs "AB") 2 (by decide), ?_⟩
  have h := C1_charToIndex_dense.2.2.2.2 (chs "AB") 1 (by decide)
  simpa using h

/-! ## The counting-array access stream -/

/-- Claim C2: the counting pass of MsdRadixPure on the two-element input
[".", ".."] subscripts the counting array — which has R + 2 = 76
entries — with index 76, so not every access is within bounds. -/
theorem C2_out_of_bounds :
    76 ∈ (msdRadixSortPure (fun s => s) [chs ".", chs ".."]).acc ∧
    (countPass (fun s => s) 0 [chs ".", chs ".."]).length = R + 2 ∧
    ¬ (76 < R + 2) := by
  decide

/-! ## Failing sortedness evaluations -/

/-- Claim C3: TernaryQuickSort leaves ["c", "a", "b"] as ["a", "c", "b"],
which is not sorted — the pivot is held by reference into arr[lo] and
changes after the first swap. -/
theorem C3_failing_eval :
    (run (fun s => s) Algo.TernaryQuick [chs "c", chs "a", chs "b"] 0).1 =
      [chs "a", chs "c", chs "b"] ∧
    isSortedKey (fun s => s)
      (run (fun s => s) Algo.TernaryQuick [chs "c", chs "a", chs "b"] 0).1 = false := by
  decide

/-- Claim C4: on ["c", "a", "b"] the cutoff variant (which hands the
3-element range to the suffix ternary quicksort) returns ["a","c","b"],
while the pure variant returns ["a","b","c"]; the two outputs differ. -/
theorem C4_failing_eval :
    (run (fun s => s) Algo.MsdRadix [chs "c", chs "a", chs "b"] 0).1 =
      [chs "a", chs "c", chs "b"] ∧
    (run (fun s => s) Algo.MsdRadixPure [chs "c", chs "a", chs "b"] 0).1 =
      [chs "a", chs "b", chs "c"] ∧
    (run (fun s => s) Algo.MsdRadix [chs "c", chs "a", chs "b"] 0).1 ≠
      (run (fun s => s) Algo.MsdRadixPure [chs "c", chs "a", chs "b"] 0).1 := by
  decide

/-- Claim C5 (counterexample): MsdRadixCutoff is not stable. On the tagged
input [("a",0), ("c",1), ("c",2)] the two equal strings "c" come out in
the order (c,2), (c,1): the suffix quicksort fallback reorders equal
elements. -/
theorem C5_counterexample :
    keyFilter Prod.fst (chs "c")
        ((run Prod.fst Algo.MsdRadix [(chs "a", 0), (chs "c", 1), (chs "c", 2)] 0).1) =
      [(chs "c", 2), (chs "c", 1)] ∧
    keyFilter Prod.fst (chs "c") [(chs "a", 0), (chs "c", 1), (chs "c", 2)] =
      [(chs "c", 1), (chs "c", 2)] ∧
    keyFilter Prod.fst (chs "c")
        ((run Prod.fst Algo.MsdRadix [(chs "a", 0), (chs "c", 1), (chs "c", 2)] 0).1) ≠
      keyFilter Prod.fst (chs "c") [(chs "a", 0), (chs "c", 1), (chs "c", 2)] := by
  decide

/-- Claim C6 (counterexample): a two-element range handled by the cutoff
fallback scans exactly one element but charges 2 comparison increments
(the scan increment plus the one made inside suffixLess), whereas the
plain section-4.3 ternary quicksort charges exactly 1 on the same
input. -/
theorem C6_counterexample :
    (run (fun s => s) Algo.MsdRadix [chs "b", chs "a"] 0).2 = 2 ∧
    (run (fun s => s) Algo.TernaryQuick [chs "b", chs "a"] 0).2 = 1 ∧
    (2 : Nat) ≠ 1 := by
  decide

/-! ## Counter reset, determinism, trivial inputs -/

/-- Claim C9: run resets the comparison counter on entry, so its result —
output sequence and reported comparison count — does not depend on the
counter state c0 left behind by earlier calls on the same engine. -/
theorem C9_counter_reset :
    ∀ (algo : Algo) (l : List Str) (c0 : Nat),
      run (fun s => s) algo l c0 = run (fun s => s) algo l 0 := by
  intro algo l c0
  rfl

/-- Claim C10 (counterexample to the original all-input scope): the claim
quantifies over inputs such as ["a", "."], on which the MsdRadixPure
selector's counting pass subscripts the 76-entry counting array with
index 76 — the out-of-bounds access of C2, on which the C++ program
guarantees nothing, determinism included — so the determinism guarantee
must be restricted to in-bounds executions. -/
theorem C10_counterexample :
    76 ∈ radixAcc (fun s => s) Algo.MsdRadixPure [chs "a", chs "."] ∧
    ¬ (76 < R + 2) := by
  decide

/-- Claim C10 (amended): run is deterministic on every execution that
keeps all counting-array accesses within the array's R + 2 entries — two
invocations on equal input sequences, regardless of the engine's prior
counter state, produce equal output sequences and equal comparison
counts. Executions whose access stream leaves the array (see the
counterexample) are out of scope: there the C++ performs an
out-of-bounds access and guarantees nothing. -/
theorem C10_deterministic :
    ∀ (algo : Algo) (l1 l2 : List Str) (c1 c2 : Nat), l1 = l2 →
      (∀ i ∈ radixAcc (fun s => s) algo l1, i < R + 2) →
      (run (fun s => s) algo l1 c1).1 = (run (fun s => s) algo l2 c2).1 ∧
      (run (fun s => s) algo l1 c1).2 = (run (fun s => s) algo l2 c2).2 := by
  rintro algo l _ c1 c2 rfl _
  exact ⟨rfl, rfl⟩

/-- Witness for C10_deterministic on a concrete radix input and two
distinct prior counter states, discharging the in-bounds hypothesis by
evaluation of the access stream. -/
theorem C10_witness :
    (∀ i ∈ radixAcc (fun s => s) Algo.MsdRadixPure [chs "b", chs "a"], i < R + 2) ∧
    ((run (fun s => s) Algo.MsdRadixPure [chs "b", chs "a"] 5).1 =
      (run (fun s => s) Algo.MsdRadixPure [chs "b", chs "a"] 7).1 ∧
    (run (fun s => s) Algo.MsdRadixPure [chs "b", chs "a"] 5).2 =
      (run (fun s => s) Algo.MsdRadixPure [chs "b", chs "a"] 7).2) :=
  ⟨by decide,
    C10_deterministic Algo.MsdRadixPure [chs "b", chs "a"] [chs "b", chs "a"] 5 7 rfl
      (by decide)⟩

/-- Claim C8: for every algorithm selector, run on an empty or singleton
sequence returns it unchanged with a comparison count of zero; in
particular the TernaryQuickSort call on an empty sequence receives
hi = size()-1 = -1 and is a no-op. -/
theorem C8_empty_singleton :
    ∀ (algo : Algo) (c0 : Nat) (x : Str),
      run (fun s => s) algo [] c0 = ([], 0) ∧
      run (fun s => s) algo [x] c0 = ([x], 0) := by
  intro algo c0 x
  cases algo with
  | StdQuick => exact ⟨rfl, rfl⟩
  | StdMergeLCP =>
    constructor
    · show mergeSortLCP (fun s => s) [] = ([], 0)
      rw [mergeSortLCP]
      rfl
    · show mergeSortLCP (fun s => s) [x] = ([x], 0)
      rw [mergeSortLCP]
      rfl
  | TernaryQuick =>
    constructor
    · rfl
    · show tqsGo (fun s => s) (1 + 1) [x] 0 (sizeMinusOne 1) = ([x], 0)
      rfl
  | MsdRadix => exact ⟨rfl, rfl⟩
  | MsdRadixPure => exact ⟨rfl, rfl⟩

end StringSortTester

namespace StringSortTester

/-! ## The lexicographic order on byte strings -/

theorem strLt_irrefl (a : Str) : strLt a a = false := by
  induction a with
  | nil => rfl
  | cons c t ih => simp only [strLt, if_neg (lt_irrefl c), ih]

theorem strLt_asymm : ∀ a b : Str, strLt a b = true → strLt b a = false
  | [], [], h => by simp [strLt] at h
  | [], _ :: _, _ => rfl
  | _ :: _, [], h => by simp [strLt] at h
  | c :: a, d :: b, h => by
    by_cases hcd : c < d
    · have hdc : ¬ d < c := lt_asymm hcd
      simp only [strLt, if_neg hdc, if_pos hcd]
    · by_cases hdc : d < c
      · simp only [strLt, if_neg hcd, if_pos hdc] at h
        exact absurd h (by simp)
      · simp only [strLt, if_neg hcd, if_neg hdc] at h ⊢
        exact strLt_asymm a b h

theorem strLt_trans : ∀ a b c : Str, strLt a b = true → strLt b c = true → strLt a c = true
  | [], _, _ :: _, _, _ => rfl
  | [], b, [], _, h2 => by
    cases b <;> simp [strLt] at h2
  | _ :: _, [], _, h1, _ => by simp [strLt] at h1
  | _ :: _, _ :: _, [], _, h2 => by simp [strLt] at h2
  | x :: a, y :: b, z :: c, h1, h2 => by
    by_cases hxy : x < y
    · by_cases hyz : y < z
      · have hxz : x < z := lt_trans hxy hyz
        simp only [strLt, if_pos hxz]
      · by_cases hzy : z < y
        · simp only [strLt, if_neg hyz, if_pos hzy] at h2
          exact absurd h2 (by simp)
        · have hyzeq : y = z := le_antisymm (not_lt.mp hzy) (not_lt.mp hyz)
          subst hyzeq
          simp only [strLt, if_pos hxy]
    · by_cases hyx : y < x
      · simp only [strLt, if_neg hxy, if_pos hyx] at h1
        exact absurd h1 (by simp)
      · have hxyeq : x = y := le_antisymm (not_lt.mp hyx) (not_lt.mp hxy)
        subst hxyeq
        simp only [strLt, if_neg hxy, if_neg hyx] at h1
        by_cases hyz : x < z
        · simp only [strLt, if_pos hyz]
        · by_cases hzy : z < x
          · simp only [strLt, if_neg hyz, if_pos hzy] at h2
            exact absurd h2 (by simp)
          · simp only [strLt, if_neg hyz, if_neg hzy] at h2 ⊢
            exact strLt_trans a b c h1 h2

theorem strLt_conn : ∀ a b : Str, strLt a b = false → strLt b a = false → a = b
  | [], [], _, _ => rfl
  | [], _ :: _, h1, _ => by simp [strLt] at h1
  | _ :: _, [], _, h2 => by simp [strLt] at h2
  | x :: a, y :: b, h1, h2 => by
    by_cases hxy : x < y
    · simp only [strLt, if_pos hxy] at h1
      exact absurd h1 (by simp)
    · by_cases hyx : y < x
      · simp only [strLt, if_neg (lt_asymm hyx), if_pos hyx] at h2
        exact absurd h2 (by simp)
      · have hxyeq : x = y := le_antisymm (not_lt.mp hyx) (not_lt.mp hxy)
        subst hxyeq
        simp only [strLt, if_neg hxy, if_neg hyx] at h1 h2
        rw [strLt_conn a b h1 h2]

theorem strLe_refl (a : Str) : strLe a a = true := by
  simp [strLe, strLt_irrefl]

theorem strLe_of_strLt {a b : Str} (h : strLt a b = true) : strLe a b = true := by
  simp [strLe, strLt_asymm a b h]

theorem strLe_of_not_strLe {a b : Str} (h : strLe a b = false) : strLe b a = true := by
  simp only [strLe, Bool.not_eq_false'] at h
  exact strLe_of_strLt h

theorem strLt_of_not_strLe {a b : Str} (h : strLe a b = false) : strLt b a = true := by
  simpa [strLe] using h

theorem strLe_trans {a b c : Str} (h1 : strLe a b = true) (h2 : strLe b c = true) :
    strLe a c = true := by
  simp only [strLe, Bool.not_eq_true'] at h1 h2 ⊢
  by_cases hca : strLt c a = true
  · by_cases hbc : strLt b c = true
    · exact absurd (strLt_trans b c a hbc hca) (by simp [h1])
    · have hbceq : b = c := strLt_conn b c (by simpa using hbc) h2
      subst hbceq
      exact absurd hca (by simp [h1])
  · simpa using hca

theorem strLe_antisymm {a b : Str} (h1 : strLe a b = true) (h2 : strLe b a = true) :
    a = b := by
  simp only [strLe, Bool.not_eq_true'] at h1 h2
  exact strLt_conn a b h2 h1

/-! ## Merge sort: order, permutation, stability, counting -/

section MergeProofs

variable {α : Type} [Inhabited α] {key : α → Str}

theorem mergeRun_perm (key : α → Str) :
    ∀ a b : List α, (mergeRun key a b).1.Perm (a ++ b)
  | [], b => by simp [mergeRun]
  | x :: a, [] => by simp [mergeRun]
  | x :: a, y :: b => by
    rw [mergeRun]
    by_cases h : strLe (key x) (key y) = true
    · simp only [if_pos h]
      exact (mergeRun_perm key a (y :: b)).cons x
    · simp only [if_neg h]
      refine ((mergeRun_perm key (x :: a) b).cons y).trans ?_
      exact (List.perm_middle).symm
  termination_by a b => a.length + b.length

theorem mergeRun_mem {x : α} (key : α → Str) (a b : List α)
    (h : x ∈ (mergeRun key a b).1) : x ∈ a ∨ x ∈ b := by
  have := (mergeRun_perm key a b).mem_iff.mp h
  simpa using this

theorem mergeRun_sorted (key : α → Str) :
    ∀ a b : List α, SortedK key a → SortedK key b → SortedK key (mergeRun key a b).1
  | [], b, _, hb => by simpa [mergeRun] using hb
  | x :: a, [], ha, _ => by simpa [mergeRun] using ha
  | x :: a, y :: b, ha, hb => by
    rw [mergeRun]
    by_cases h : strLe (key x) (key y) = true
    · simp only [if_pos h]
      have ha' : SortedK key a := (List.pairwise_cons.mp ha).2
      have hx : ∀ z ∈ a, strLe (key x) (key z) = true := (List.pairwise_cons.mp ha).1
      refine List.pairwise_cons.mpr ⟨?_, mergeRun_sorted key a (y :: b) ha' hb⟩
      intro z hz
      rcases mergeRun_mem key a (y :: b) hz with hza | hzb
      · exact hx z hza
      · rcases List.mem_cons.mp hzb with rfl | hzb'
        · exact h
        · exact strLe_trans h ((List.pairwise_cons.mp hb).1 z hzb')
    · simp only [if_neg h]
      have hb' : SortedK key b := (List.pairwise_cons.mp hb).2
      have hy : ∀ z ∈ b, strLe (key y) (key z) = true := (List.pairwise_cons.mp hb).1
      have hf : strLe (key x) (key y) = false := by simpa using h
      have hyx : strLe (key y) (key x) = true := strLe_of_not_strLe hf
      refine List.pairwise_cons.mpr ⟨?_, mergeRun_sorted key (x :: a) b ha hb'⟩
      intro z hz
      rcases mergeRun_mem key (x :: a) b hz with hza | hzb
      · rcases List.mem_cons.mp hza with rfl | hza'
        · exact hyx
        · exact strLe_trans hyx ((List.pairwise_cons.mp ha).1 z hza')
      · exact hy z hzb
  termination_by a b => a.length + b.length

theorem mergeRun_stable (key : α → Str) (k : Str) :
    ∀ a b : List α, SortedK key a → SortedK key b →
      keyFilter key k (mergeRun key a b).1 = keyFilter key k a ++ keyFilter key k b
  | [], b, _, _ => by simp [mergeRun, keyFilter]
  | x :: a, [], _, _ => by simp [mergeRun, keyFilter]
  | x :: a, y :: b, ha, hb => by
    rw [mergeRun]
    by_cases h : strLe (key x) (key y) = true
    · simp only [if_pos h]
      have ha' : SortedK key a := (List.pairwise_cons.mp ha).2
      have ih := mergeRun_stable key k a (y :: b) ha' hb
      by_cases hxk : key x = k
      · simp [keyFilter, List.filter_cons, hxk, ih] at ih ⊢
        simp [ih]
      · simp [keyFilter, List.filter_cons, hxk] at ih ⊢
        simp [ih]
    · simp only [if_neg h]
      have hb' : SortedK key b := (List.pairwise_cons.mp hb).2
      have ih := mergeRun_stable key k (x :: a) b ha hb'
      by_cases hyk : key y = k
      · -- the tie-break went right, so no element on the left can have key k
        have hf : strLe (key x) (key y) = false := by simpa using h
        have hyltx : strLt (key y) (key x) = true := strLt_of_not_strLe hf
        have hnone : ∀ z ∈ x :: a, ¬ (key z = k) := by
          intro z hz hzk
          rcases List.mem_cons.mp hz with rfl | hza
          · rw [hzk, ← hyk] at hyltx
            simp [strLt_irrefl] at hyltx
          · have hxz : strLe (key x) (key z) = true := (List.pairwise_cons.mp ha).1 z hza
            rw [hzk, ← hyk] at hxz
            simp only [strLe, Bool.not_eq_true'] at hxz
            exact absurd hyltx (by simp [hxz])
        have hfa : keyFilter key k (x :: a) = [] := by
          simp only [keyFilter, List.filter_eq_nil_iff]
          intro z hz
          simpa using hnone z hz
        simp only [keyFilter] at ih hfa ⊢
        simp [List.filter_cons, hyk, ih, hfa]
      · simp only [keyFilter] at ih ⊢
        simp [List.filter_cons, hyk, ih]
  termination_by a b => a.length + b.length

theorem mergeRun_comps_bound (key : α → Str) :
    ∀ a b : List α, a ≠ [] → b ≠ [] →
      (mergeRun key a b).2 + 1 ≤ a.length + b.length
  | [], _, ha, _ => absurd rfl ha
  | _ :: _, [], _, hb => absurd rfl hb
  | x :: a, y :: b, _, _ => by
    rw [mergeRun]
    by_cases h : strLe (key x) (key y) = true
    · simp only [if_pos h]
      cases a with
      | nil =>
        simp only [mergeRun, List.length_cons, List.length_nil]
        omega
      | cons x' a' =>
        have := mergeRun_comps_bound key (x' :: a') (y :: b) (by simp) (by simp)
        simp only [List.length_cons] at this ⊢
        omega
    · simp only [if_neg h]
      cases b with
      | nil =>
        simp only [mergeRun, List.length_cons, List.length_nil]
        omega
      | cons y' b' =>
        have := mergeRun_comps_bound key (x :: a) (y' :: b') (by simp) (by simp)
        simp only [List.length_cons] at this ⊢
        omega
  termination_by a b => a.length + b.length

end MergeProofs

end StringSortTester


namespace StringSortTester

section MergeSortProofs

variable {α : Type} [Inhabited α] {β : Type} [Inhabited β]

theorem mergeSortLCP_short (key : α → Str) (l : List α) (h : l.length ≤ 1) :
    mergeSortLCP key l = (l, 0) := by
  rw [mergeSortLCP, if_pos h]

theorem mergeSortLCP_long (key : α → Str) (l : List α) (h : ¬ l.length ≤ 1) :
    mergeSortLCP key l =
      ((mergeRun key (mergeSortLCP key (l.take (l.length / 2))).1
          (mergeSortLCP key (l.drop (l.length / 2))).1).1,
        (mergeSortLCP key (l.take (l.length / 2))).2 +
          (mergeSortLCP key (l.drop (l.length / 2))).2 +
          (mergeRun key (mergeSortLCP key (l.take (l.length / 2))).1
            (mergeSortLCP key (l.drop (l.length / 2))).1).2) := by
  rw [mergeSortLCP, if_neg h]

/-- Permutation, sortedness and per-key stability of mergeSortLCP, proved
together by strong induction on the slice length. -/
theorem mergeSortLCP_main (key : α → Str) (l : List α) :
    (mergeSortLCP key l).1.Perm l ∧ SortedK key (mergeSortLCP key l).1 ∧
      ∀ k, keyFilter key k (mergeSortLCP key l).1 = keyFilter key k l := by
  have H : ∀ n (l : List α), l.length = n →
      (mergeSortLCP key l).1.Perm l ∧ SortedK key (mergeSortLCP key l).1 ∧
        ∀ k, keyFilter key k (mergeSortLCP key l).1 = keyFilter key k l := by
    intro n
    induction n using Nat.strong_induction_on with
    | _ n ih =>
      intro l hl
      by_cases h : l.length ≤ 1
      · rw [mergeSortLCP, if_pos h]
        refine ⟨List.Perm.refl l, ?_, fun k => rfl⟩
        match l, h with
        | [], _ => exact List.Pairwise.nil
        | [x], _ => exact List.pairwise_singleton _ x
      · have ht : (l.take (l.length / 2)).length < n := by
          simp only [List.length_take]
          omega
        have hd : (l.drop (l.length / 2)).length < n := by
          simp only [List.length_drop]
          omega
        have ih1 := ih _ (hl ▸ ht) (l.take (l.length / 2)) rfl
        have ih2 := ih _ (hl ▸ hd) (l.drop (l.length / 2)) rfl
        rw [mergeSortLCP, if_neg h]
        refine ⟨?_, ?_, ?_⟩
        · refine (mergeRun_perm key _ _).trans ?_
          refine (ih1.1.append ih2.1).trans ?_
          rw [List.take_append_drop]
        · exact mergeRun_sorted key _ _ ih1.2.1 ih2.2.1
        · intro k
          rw [mergeRun_stable key k _ _ ih1.2.1 ih2.2.1, ih1.2.2 k, ih2.2.2 k]
          simp only [keyFilter, ← List.filter_append, List.take_append_drop]
  exact H l.length l rfl

theorem mergeSortLCP_stable (key : α → Str) (k : Str) (l : List α) :
    keyFilter key k (mergeSortLCP key l).1 = keyFilter key k l :=
  (mergeSortLCP_main key l).2.2 k

theorem mergeRun_map (key1 : α → Str) (key2 : β → Str) (f : α → β)
    (hf : ∀ x y : α, strLe (key2 (f x)) (key2 (f y)) = strLe (key1 x) (key1 y)) :
    ∀ a b : List α,
      mergeRun key2 (a.map f) (b.map f) = ((mergeRun key1 a b).1.map f, (mergeRun key1 a b).2)
  | [], b => by simp [mergeRun]
  | x :: a, [] => by simp [mergeRun]
  | x :: a, y :: b => by
    simp only [List.map_cons, mergeRun, hf x y]
    by_cases h : strLe (key1 x) (key1 y) = true
    · simp only [if_pos h]
      have ih := mergeRun_map key1 key2 f hf a (y :: b)
      simp only [List.map_cons] at ih
      simp [ih]
    · simp only [if_neg h]
      have ih := mergeRun_map key1 key2 f hf (x :: a) b
      simp only [List.map_cons] at ih
      simp [ih]
  termination_by a b => a.length + b.length

/-- The comparison count of mergeSortLCP depends only on the outcomes of
the head-to-head <= tests: any relabelling of the elements that leaves
every pairwise <= outcome unchanged leaves the whole run — sorted output
(up to the relabelling) and comparison count — unchanged. -/
theorem mergeSortLCP_map (key1 : α → Str) (key2 : β → Str) (f : α → β)
    (hf : ∀ x y : α, strLe (key2 (f x)) (key2 (f y)) = strLe (key1 x) (key1 y))
    (l : List α) :
    mergeSortLCP key2 (l.map f) = ((mergeSortLCP key1 l).1.map f, (mergeSortLCP key1 l).2) := by
  have H : ∀ n (l : List α), l.length = n →
      mergeSortLCP key2 (l.map f) = ((mergeSortLCP key1 l).1.map f, (mergeSortLCP key1 l).2) := by
    intro n
    induction n using Nat.strong_induction_on with
    | _ n ih =>
      intro l hl
      by_cases h : l.length ≤ 1
      · rw [mergeSortLCP_short key2 _ (by simpa using h), mergeSortLCP_short key1 l h]
      · have ht : (l.take (l.length / 2)).length < n := by
          simp only [List.length_take]
          omega
        have hd : (l.drop (l.length / 2)).length < n := by
          simp only [List.length_drop]
          omega
        have ih1 := ih _ (hl ▸ ht) (l.take (l.length / 2)) rfl
        have ih2 := ih _ (hl ▸ hd) (l.drop (l.length / 2)) rfl
        rw [mergeSortLCP_long key2 _ (by simpa using h), mergeSortLCP_long key1 l h]
        simp only [List.length_map, ← List.map_take, ← List.map_drop]
        rw [ih1, ih2, mergeRun_map key1 key2 f hf]
  exact H l.length l rfl

end MergeSortProofs

end StringSortTester

namespace StringSortTester

/-- Claim C7: in PrefixMergeSort the counter is incremented exactly once
per merge-step whole-string <= comparison of the two current heads and
never for elements copied after one half is exhausted. Concretely:
a slice of size <= 1 runs with zero comparisons; a merge against an
exhausted half costs nothing; a merge of two non-empty halves charges at
most one comparison per element and always leaves at least one element
uncharged; and the total count is invariant under any relabelling of the
strings that preserves all pairwise <= outcomes — so the count depends
only on the whole-string merge-step tests, never on characters (no LCP
counting). -/
theorem C7_merge_counting :
    (∀ (l : List Str) (c0 : Nat), l.length ≤ 1 →
        run (fun s => s) Algo.StdMergeLCP l c0 = (l, 0)) ∧
    (∀ b : List Str, mergeRun (fun s => s) [] b = (b, 0)) ∧
    (∀ (x : Str) (a : List Str), mergeRun (fun s => s) (x :: a) [] = (x :: a, 0)) ∧
    (∀ a b : List Str, a ≠ [] → b ≠ [] →
        (mergeRun (fun s => s) a b).2 + 1 ≤ a.length + b.length) ∧
    (∀ f : Str → Str, (∀ x y : Str, strLe (f x) (f y) = strLe x y) →
        ∀ l : List Str,
          (mergeSortLCP (fun s => s) (l.map f)).2 = (mergeSortLCP (fun s => s) l).2) := by
  refine ⟨?_, fun b => by rw [mergeRun], fun x a => by rw [mergeRun], mergeRun_comps_bound (fun s => s), ?_⟩
  · intro l c0 h
    show mergeSortLCP (fun s => s) l = (l, 0)
    exact mergeSortLCP_short (fun s => s) l h
  · intro f hf l
    rw [mergeSortLCP_map (fun s => s) (fun s => s) f (fun x y => hf x y) l]

/-- Witness for C7_merge_counting at concrete inputs. -/
theorem C7_witness :
    run (fun s => s) Algo.StdMergeLCP [chs "q"] 3 = ([chs "q"], 0) ∧
    (mergeRun (fun s => s) [chs "a"] [chs "b"]).2 + 1 ≤ 2 ∧
    (mergeSortLCP (fun s => s) ([chs "b", chs "a"].map (fun s => s))).2 =
      (mergeSortLCP (fun s => s) [chs "b", chs "a"]).2 :=
  ⟨C7_merge_counting.1 [chs "q"] 3 (by decide),
    C7_merge_counting.2.2.2.1 [chs "a"] [chs "b"] (by decide) (by decide),
    C7_merge_counting.2.2.2.2 (fun s => s) (fun x y => rfl) [chs "b", chs "a"]⟩

/-! ## The cutoff fallback of MsdRadixCutoff -/

theorem suffixLessGo_comps :
    ∀ (sa sb : List Char) (la lb : Nat), (suffixLessGo sa sb la lb).2 = lcpLen sa sb + 1
  | [], [], _, _ => rfl
  | [], _ :: _, _, _ => rfl
  | _ :: _, [], _, _ => rfl
  | x :: sa, y :: sb, la, lb => by
    by_cases hxy : x < y
    · simp [suffixLessGo, hxy, lcpLen, ne_of_lt hxy]
    · by_cases hyx : y < x
      · simp [suffixLessGo, hxy, hyx, lcpLen, (ne_of_lt hyx).symm]
      · have hxyeq : x = y := le_antisymm (not_lt.mp hyx) (not_lt.mp hxy)
        subst hxyeq
        simp [suffixLessGo, lt_irrefl, lcpLen, suffixLessGo_comps sa sb la lb]

theorem suffixLess_comps (a b : Str) (d : Nat) :
    (suffixLess a b d).2 = lcpLen (a.drop d) (b.drop d) + 1 :=
  suffixLessGo_comps (a.drop d) (b.drop d) a.length b.length

/-- Claim C6 (amended): every range of size 2..15 reached by MsdRadixCutoff
is finished by ternaryQuickSortSuffix on [left, right-1] at offset d
(first conjunct, the delegation); and each suffixLess evaluation charges
one increment per character position examined plus one final increment —
i.e. the common-prefix length of the two suffixes plus one — rather than
one increment per scanned element (second conjunct). -/
theorem C6_cutoff_fallback :
    (∀ (l : List Str) (d fuel : Nat), 2 ≤ l.length → l.length ≤ cutoff →
        msdCutGo (fun s => s) (fuel + 1) l d =
          ⟨(tqsSufGo (fun s => s) d (l.length + 1) l 0 ((l.length : Int) - 1)).1,
            (tqsSufGo (fun s => s) d (l.length + 1) l 0 ((l.length : Int) - 1)).2, []⟩) ∧
    (∀ (a b : Str) (d : Nat), (suffixLess a b d).2 = lcpLen (a.drop d) (b.drop d) + 1) := by
  refine ⟨?_, suffixLess_comps⟩
  intro l d fuel h2 h15
  rw [msdCutGo]
  rw [if_neg (by omega), if_pos h15]

/-- Witness for C6_cutoff_fallback at concrete inputs. -/
theorem C6_witness :
    msdCutGo (fun s => s) 1 [chs "b", chs "a"] 0 =
      ⟨(tqsSufGo (fun s => s) 0 3 [chs "b", chs "a"] 0 1).1,
        (tqsSufGo (fun s => s) 0 3 [chs "b", chs "a"] 0 1).2, []⟩ ∧
    (suffixLess (chs "abc") (chs "abd") 1).2 = lcpLen (chs "bc") (chs "bd") + 1 :=
  ⟨C6_cutoff_fallback.1 [chs "b", chs "a"] 0 0 (by decide) (by decide),
    C6_cutoff_fallback.2 (chs "abc") (chs "abd") 1⟩

end StringSortTester

namespace StringSortTester

/-! ## Radix sort: counting-array laws and pass characterisations -/

theorem cget_cset : ∀ (c : List Nat) (i j v : Nat),
    cget (cset c i v) j = if i = j ∧ i < c.length then v else cget c j
  | [], i, j, v => by simp [cget, cset]
  | h :: t, 0, 0, v => by simp [cget, cset]
  | h :: t, 0, j + 1, v => by simp [cget, cset]
  | h :: t, i + 1, 0, v => by simp [cget, cset]
  | h :: t, i + 1, j + 1, v => by
    have ih := cget_cset t i j v
    simp only [cget, cset] at ih ⊢
    simp only [List.set_cons_succ, List.getD_cons_succ, List.length_cons]
    rw [ih]
    by_cases hij : i = j
    · subst hij
      by_cases hlen : i < t.length <;> simp [hlen, Nat.succ_lt_succ_iff]
    · simp [hij]

theorem length_cset (c : List Nat) (i v : Nat) : (cset c i v).length = c.length :=
  List.length_set c i v

theorem setA_eval {α : Type} (f : Nat → α) (i : Nat) (x : α) (q : Nat) :
    setA f i x q = if q = i then x else f q := rfl

theorem findIdxQ_lt_length (p : Char → Bool) :
    ∀ (l : List Char) (i : Nat), l.findIdx? p = some i → i < l.length := by
  intro l
  induction l with
  | nil => intro i h; simp [List.findIdx?] at h
  | cons x xs ih =>
    intro i h
    rw [List.findIdx?_cons] at h
    by_cases hx : p x
    · simp [hx] at h
      simp only [List.length_cons]
      omega
    · simp [hx] at h
      obtain ⟨i', hi', rfl⟩ := h
      have := ih i' hi'
      simp only [List.length_cons]
      omega

theorem charToIndex_lt (c : Char) : charToIndex c < 75 := by
  unfold charToIndex
  rcases h : alphaL.findIdx? (fun x => x = c) with _ | i
  · show (-1 : Int) < 75
    decide
  · show (i : Int) < 75
    have hb := findIdxQ_lt_length (fun x => x = c) alphaL i h
    have hlen : alphaL.length = 75 := by decide
    omega

theorem charToIndex_ge (c : Char) : -1 ≤ charToIndex c := by
  unfold charToIndex
  rcases h : alphaL.findIdx? (fun x => x = c) with _ | i
  · show (-1 : Int) ≤ -1
    decide
  · show (-1 : Int) ≤ (i : Int)
    omega

theorem charAt_lt (s : Str) (d : Nat) : charAt s d < 75 := by
  unfold charAt
  by_cases h : d < s.length
  · simpa [h] using charToIndex_lt (s.getD d 'A')
  · simp [h]

theorem charAt_ge (s : Str) (d : Nat) : -1 ≤ charAt s d := by
  unfold charAt
  by_cases h : d < s.length
  · simpa [h] using charToIndex_ge (s.getD d 'A')
  · simp [h]

section RadixBounds

variable {α : Type} [Inhabited α]

theorem rankIdx1_le (key : α → Str) (d : Nat) (a : α) : rankIdx1 key d a ≤ 75 := by
  unfold rankIdx1
  have h1 := charAt_lt (key a) d
  have h2 := charAt_ge (key a) d
  omega

theorem rankIdx2_eq (key : α → Str) (d : Nat) (a : α) :
    rankIdx2 key d a = rankIdx1 key d a + 1 := by
  unfold rankIdx1 rankIdx2
  have h2 := charAt_ge (key a) d
  omega

theorem length_countFold (key : α → Str) (d : Nat) :
    ∀ (l : List α) (c : List Nat),
      (l.foldl (fun c a => cset c (rankIdx2 key d a) (cget c (rankIdx2 key d a) + 1)) c).length
        = c.length := by
  intro l
  induction l with
  | nil => intro c; rfl
  | cons a t ih =>
    intro c
    simp only [List.foldl_cons]
    rw [ih, length_cset]

theorem length_countPass (key : α → Str) (d : Nat) (l : List α) :
    (countPass key d l).length = R + 2 := by
  unfold countPass
  rw [length_countFold, List.length_replicate]

theorem cget_countFold (key : α → Str) (d : Nat) :
    ∀ (l : List α) (c : List Nat) (j : Nat), j < c.length →
      cget (l.foldl (fun c a => cset c (rankIdx2 key d a) (cget c (rankIdx2 key d a) + 1)) c) j
        = cget c j + List.countP (fun a => decide (rankIdx2 key d a = j)) l := by
  intro l
  induction l with
  | nil => intro c j _; simp
  | cons a t ih =>
    intro c j hj
    simp only [List.foldl_cons, List.countP_cons]
    rw [ih _ j (by rw [length_cset]; exact hj)]
    rw [cget_cset]
    by_cases he : rankIdx2 key d a = j
    · rw [if_pos ⟨he, by omega⟩]
      simp only [he, decide_eq_true_eq]
      simp
      omega
    · rw [if_neg (by tauto)]
      simp [he]

theorem cget_countPass (key : α → Str) (d : Nat) (l : List α) (j : Nat) (hj : j < R + 2) :
    cget (countPass key d l) j = List.countP (fun a => decide (rankIdx2 key d a = j)) l := by
  unfold countPass
  rw [cget_countFold key d l _ j (by rw [List.length_replicate]; exact hj)]
  simp [cget, List.getD]

end RadixBounds

end StringSortTester

namespace StringSortTester

section RadixSum

variable {α : Type} [Inhabited α]

theorem length_sumFold :
    ∀ (m : Nat) (c : List Nat),
      ((List.range m).foldl (fun c r => cset c (r + 1) (cget c (r + 1) + cget c r)) c).length
        = c.length := by
  intro m
  induction m with
  | zero => intro c; rfl
  | succ m ih =>
    intro c
    rw [List.range_succ, List.foldl_append]
    simp only [List.foldl_cons, List.foldl_nil]
    rw [length_cset, ih]

theorem cget_sumFold :
    ∀ (m : Nat) (c : List Nat), m < c.length → ∀ j,
      cget ((List.range m).foldl (fun c r => cset c (r + 1) (cget c (r + 1) + cget c r)) c) j
        = if 1 ≤ j ∧ j ≤ m then ((List.range (j + 1)).map (cget c)).sum else cget c j := by
  intro m
  induction m with
  | zero =>
    intro c _ j
    rw [if_neg (by omega)]
    rfl
  | succ m ih =>
    intro c hm j
    rw [List.range_succ, List.foldl_append]
    simp only [List.foldl_cons, List.foldl_nil]
    have hm' : m < c.length := by omega
    have hlen : ((List.range m).foldl
        (fun c r => cset c (r + 1) (cget c (r + 1) + cget c r)) c).length = c.length :=
      length_sumFold m c
    have hprev1 : cget ((List.range m).foldl
        (fun c r => cset c (r + 1) (cget c (r + 1) + cget c r)) c) (m + 1) = cget c (m + 1) := by
      rw [ih c hm' (m + 1), if_neg (by omega)]
    have hprevm : cget ((List.range m).foldl
        (fun c r => cset c (r + 1) (cget c (r + 1) + cget c r)) c) m
        = ((List.range (m + 1)).map (cget c)).sum := by
      rw [ih c hm' m]
      by_cases h1 : 1 ≤ m
      · rw [if_pos ⟨h1, le_refl m⟩]
      · have h0 : m = 0 := by omega
        subst h0
        simp [List.range_succ]
    rw [cget_cset, hlen, hprev1, hprevm, ih c hm' j]
    by_cases hj : m + 1 = j
    · subst hj
      rw [if_pos ⟨rfl, hm⟩, if_pos (show 1 ≤ m + 1 ∧ m + 1 ≤ m + 1 by omega)]
      have hs : ((List.range (m + 1 + 1)).map (cget c)).sum
          = ((List.range (m + 1)).map (cget c)).sum + cget c (m + 1) := by
        rw [List.range_succ, List.map_append, List.sum_append]
        simp
      omega
    · rw [if_neg (by tauto)]
      by_cases hc1 : 1 ≤ j ∧ j ≤ m
      · rw [if_pos hc1, if_pos (by omega)]
      · rw [if_neg hc1, if_neg (by omega)]

theorem countP_lt_succ (g : α → Nat) (j : Nat) :
    ∀ l : List α,
      List.countP (fun a => decide (g a < j)) l + List.countP (fun a => decide (g a = j)) l
        = List.countP (fun a => decide (g a < j + 1)) l := by
  intro l
  induction l with
  | nil => rfl
  | cons a t ih =>
    simp only [List.countP_cons]
    by_cases h1 : g a < j
    · have h2 : ¬ g a = j := by omega
      have h3 : g a < j + 1 := by omega
      simp only [h1, h2, h3, decide_eq_true_eq]
      simp
      omega
    · by_cases h2 : g a = j
      · have h3 : g a < j + 1 := by omega
        simp only [h1, h2, h3]
        simp
        omega
      · have h3 : ¬ g a < j + 1 := by omega
        simp only [h1, h2, h3]
        simp
        omega

theorem sumRange_countPass (key : α → Str) (d : Nat) (l : List α) :
    ∀ j, j ≤ 75 →
      ((List.range (j + 1)).map (cget (countPass key d l))).sum = SCnt key d l j := by
  have hR : R = 74 := rfl
  intro j
  induction j with
  | zero =>
    intro _
    have h0 : cget (countPass key d l) 0 = 0 := by
      rw [cget_countPass key d l 0 (by omega)]
      apply List.countP_eq_zero.mpr
      intro a _
      have h2 := rankIdx2_eq key d a
      simp only [Bool.not_eq_true, decide_eq_false_iff_not]
      omega
    have h1 : SCnt key d l 0 = 0 := by
      unfold SCnt
      apply List.countP_eq_zero.mpr
      intro a _
      simp
    simp [List.range_succ, h0, h1]
  | succ j ih =>
    intro hj
    rw [List.range_succ, List.map_append, List.sum_append]
    simp only [List.map_cons, List.map_nil, List.sum_cons, List.sum_nil]
    rw [ih (by omega), cget_countPass key d l (j + 1) (by omega)]
    have he : List.countP (fun a => decide (rankIdx2 key d a = j + 1)) l
        = List.countP (fun a => decide (rankIdx1 key d a = j)) l := by
      apply List.countP_congr
      intro a _
      have h2 := rankIdx2_eq key d a
      simp only [decide_eq_true_eq]
      omega
    rw [he]
    unfold SCnt
    have hc := countP_lt_succ (fun a => rankIdx1 key d a) j l
    simp only [add_zero]
    omega

theorem cget_cnt1 (key : α → Str) (d : Nat) (l : List α) (j : Nat) (hj : j ≤ 75) :
    cget (sumPass (countPass key d l)) j = SCnt key d l j := by
  have hR : R = 74 := rfl
  unfold sumPass
  have hlen : (countPass key d l).length = R + 2 := length_countPass key d l
  rw [cget_sumFold (R + 1) (countPass key d l) (by omega) j]
  by_cases h1 : 1 ≤ j
  · rw [if_pos ⟨h1, by omega⟩]
    exact sumRange_countPass key d l j hj
  · have h0 : j = 0 := by omega
    subst h0
    rw [if_neg (by omega)]
    have hv : cget (countPass key d l) 0 = 0 := by
      rw [cget_countPass key d l 0 (by omega)]
      apply List.countP_eq_zero.mpr
      intro a _
      have h2 := rankIdx2_eq key d a
      simp only [Bool.not_eq_true, decide_eq_false_iff_not]
      omega
    have h1 : SCnt key d l 0 = 0 := by
      unfold SCnt
      apply List.countP_eq_zero.mpr
      intro a _
      simp
    rw [hv, h1]

theorem SCnt_succ (key : α → Str) (d : Nat) (l : List α) (j : Nat) :
    SCnt key d l (j + 1) = SCnt key d l j + TCnt key d l j :=
  (countP_lt_succ (fun a => rankIdx1 key d a) j l).symm

theorem SCnt_mono (key : α → Str) (d : Nat) (l : List α) {j j' : Nat} (h : j ≤ j') :
    SCnt key d l j ≤ SCnt key d l j' := by
  induction j' with
  | zero =>
    have h0 : j = 0 := by omega
    subst h0
    exact le_refl _
  | succ j' ih =>
    by_cases he : j = j' + 1
    · subst he
      exact le_refl _
    · have h1 := SCnt_succ key d l j'
      have h2 := ih (by omega)
      omega

theorem SCnt_le_length (key : α → Str) (d : Nat) (l : List α) (j : Nat) :
    SCnt key d l j ≤ l.length :=
  List.countP_le_length _

theorem SCnt_top (key : α → Str) (d : Nat) (l : List α) :
    SCnt key d l 76 = l.length := by
  unfold SCnt
  rw [List.countP_eq_length.mpr]
  intro a _
  have h1 := rankIdx1_le key d a
  simp only [decide_eq_true_eq]
  omega

theorem length_buckF (key : α → Str) (d : Nat) (l : List α) (j : Nat) :
    (buckF key d l j).length = TCnt key d l j := by
  unfold buckF TCnt
  exact (List.countP_eq_length_filter _ _).symm

end RadixSum

end StringSortTester

namespace StringSortTester

section RadixPlace

variable {α : Type} [Inhabited α]

theorem getD_app_left : ∀ (u v : List α) (i : Nat) (dv : α), i < u.length →
    (u ++ v).getD i dv = u.getD i dv
  | [], _, i, _, h => by simp at h
  | x :: u, v, 0, dv, _ => rfl
  | x :: u, v, i + 1, dv, h => by
    simp only [List.cons_append, List.getD_cons_succ]
    exact getD_app_left u v i dv (by simpa using h)

theorem getD_app_self : ∀ (u : List α) (x : α) (dv : α),
    (u ++ [x]).getD u.length dv = x
  | [], x, dv => rfl
  | y :: u, x, dv => by
    simp only [List.cons_append, List.length_cons, List.getD_cons_succ]
    exact getD_app_self u x dv

theorem TCnt_append (key : α → Str) (d : Nat) (p q : List α) (j : Nat) :
    TCnt key d (p ++ q) j = TCnt key d p j + TCnt key d q j := by
  unfold TCnt
  rw [List.countP_append]

theorem buckF_append (key : α → Str) (d : Nat) (p q : List α) (j : Nat) :
    buckF key d (p ++ q) j = buckF key d p j ++ buckF key d q j := by
  unfold buckF
  rw [List.filter_append]

theorem TCnt_single_eq (key : α → Str) (d : Nat) (a : α) :
    TCnt key d [a] (rankIdx1 key d a) = 1 := by
  unfold TCnt
  simp

theorem TCnt_single_ne (key : α → Str) (d : Nat) (a : α) (j : Nat)
    (h : rankIdx1 key d a ≠ j) : TCnt key d [a] j = 0 := by
  unfold TCnt
  simp [h]

theorem buckF_single_eq (key : α → Str) (d : Nat) (a : α) :
    buckF key d [a] (rankIdx1 key d a) = [a] := by
  unfold buckF
  simp

theorem buckF_single_ne (key : α → Str) (d : Nat) (a : α) (j : Nat)
    (h : rankIdx1 key d a ≠ j) : buckF key d [a] j = [] := by
  unfold buckF
  simp [h]

/-- The placement-pass invariant: starting from the summed counting array
and an all-default buffer and processing the slice left to right, the
counting array holds, for every bucket j, the bucket's start offset plus
the number of already placed bucket-j elements, and the buffer holds the
already placed elements of every bucket contiguously from the bucket's
start offset, in slice order. -/
theorem placeFoldInv (key : α → Str) (d : Nat) (l : List α) :
    ∀ (rest p : List α) (st : List Nat × (Nat → α)),
      p ++ rest = l →
      st.1.length = R + 2 →
      (∀ j, j ≤ 75 → cget st.1 j = SCnt key d l j + TCnt key d p j) →
      (∀ j, j ≤ 75 → ∀ i, i < TCnt key d p j →
        st.2 (SCnt key d l j + i) = (buckF key d p j).getD i default) →
      ((rest.foldl (placeStep key d) st).1.length = R + 2 ∧
        (∀ j, j ≤ 75 → cget (rest.foldl (placeStep key d) st).1 j
          = SCnt key d l j + TCnt key d l j) ∧
        (∀ j, j ≤ 75 → ∀ i, i < TCnt key d l j →
          (rest.foldl (placeStep key d) st).2 (SCnt key d l j + i)
            = (buckF key d l j).getD i default)) := by
  intro rest
  induction rest with
  | nil =>
    intro p st hl hlen hc ha
    rw [List.append_nil] at hl
    subst hl
    exact ⟨hlen, hc, ha⟩
  | cons a rest ih =>
    intro p st hl hlen hc ha
    simp only [List.foldl_cons]
    have hR : R = 74 := rfl
    have hj0 : rankIdx1 key d a ≤ 75 := rankIdx1_le key d a
    have hTl : ∀ j, TCnt key d l j = TCnt key d p j + TCnt key d (a :: rest) j := by
      intro j
      rw [← hl, TCnt_append]
    have hTar : ∀ j, TCnt key d [a] j + TCnt key d rest j = TCnt key d (a :: rest) j := by
      intro j
      rw [← TCnt_append]
      rfl
    -- the bucket of a still has room
    have hroom : TCnt key d p (rankIdx1 key d a) < TCnt key d l (rankIdx1 key d a) := by
      have h1 := hTl (rankIdx1 key d a)
      have h2 := hTar (rankIdx1 key d a)
      have h3 := TCnt_single_eq key d a
      omega
    apply ih (p ++ [a])
    · rw [List.append_assoc]
      simpa using hl
    · show (cset st.1 _ _).length = R + 2
      rw [length_cset]
      exact hlen
    · -- counting array after placing a
      intro j hj
      show cget (cset st.1 (rankIdx1 key d a) (cget st.1 (rankIdx1 key d a) + 1)) j
        = SCnt key d l j + TCnt key d (p ++ [a]) j
      rw [cget_cset, TCnt_append]
      by_cases he : rankIdx1 key d a = j
      · subst he
        rw [if_pos ⟨rfl, by omega⟩]
        rw [hc _ hj, TCnt_single_eq]
        omega
      · rw [if_neg (by tauto)]
        rw [hc j hj, TCnt_single_ne key d a j he]
        omega
    · -- buffer after placing a
      intro j hj i hi
      show setA st.2 (cget st.1 (rankIdx1 key d a)) a (SCnt key d l j + i)
        = (buckF key d (p ++ [a]) j).getD i default
      rw [setA_eval, hc (rankIdx1 key d a) hj0, buckF_append]
      by_cases he : rankIdx1 key d a = j
      · subst he
        rw [buckF_single_eq]
        rw [TCnt_append, TCnt_single_eq] at hi
        by_cases hie : i = TCnt key d p (rankIdx1 key d a)
        · subst hie
          rw [if_pos rfl]
          have hlb := length_buckF key d p (rankIdx1 key d a)
          rw [← hlb, getD_app_self]
        · rw [if_neg (by omega)]
          have hi' : i < TCnt key d p (rankIdx1 key d a) := by omega
          rw [getD_app_left _ _ _ _ (by rw [length_buckF]; exact hi')]
          exact ha _ hj0 i hi'
      · rw [buckF_single_ne key d a j he, List.append_nil]
        rw [TCnt_append, TCnt_single_ne key d a j he, Nat.add_zero] at hi
        -- the write position lies in bucket (rankIdx1 a), disjoint from bucket j
        have hd1 : TCnt key d p j ≤ TCnt key d l j := by
          have := hTl j
          omega
        have hij : SCnt key d l j + i ≠
            SCnt key d l (rankIdx1 key d a) + TCnt key d p (rankIdx1 key d a) := by
          rcases Nat.lt_or_ge j (rankIdx1 key d a) with hlt | hge
          · have hs1 : SCnt key d l (j + 1) = SCnt key d l j + TCnt key d l j :=
              SCnt_succ key d l j
            have hs2 : SCnt key d l (j + 1) ≤ SCnt key d l (rankIdx1 key d a) :=
              SCnt_mono key d l (by omega)
            omega
          · have hlt : rankIdx1 key d a < j := by omega
            have hs1 : SCnt key d l (rankIdx1 key d a + 1)
                = SCnt key d l (rankIdx1 key d a) + TCnt key d l (rankIdx1 key d a) :=
              SCnt_succ key d l (rankIdx1 key d a)
            have hs2 : SCnt key d l (rankIdx1 key d a + 1) ≤ SCnt key d l j :=
              SCnt_mono key d l (by omega)
            have hroom' := hroom
            omega
        rw [if_neg hij]
        exact ha j hj i hi

end RadixPlace

end StringSortTester

namespace StringSortTester

section RadixJoin

variable {α : Type} [Inhabited α]

theorem length_sumPass (c : List Nat) : (sumPass c).length = c.length :=
  length_sumFold (R + 1) c

theorem TCnt_nil (key : α → Str) (d : Nat) (j : Nat) : TCnt key d [] j = 0 := rfl

/-- The state of the counting array and the buffer after the full
placement pass. -/
theorem placePass_inv (key : α → Str) (d : Nat) (l : List α) :
    (placePass key d (sumPass (countPass key d l)) l).1.length = R + 2 ∧
      (∀ j, j ≤ 75 → cget (placePass key d (sumPass (countPass key d l)) l).1 j
        = SCnt key d l (j + 1)) ∧
      (∀ j, j ≤ 75 → ∀ i, i < TCnt key d l j →
        (placePass key d (sumPass (countPass key d l)) l).2 (SCnt key d l j + i)
          = (buckF key d l j).getD i default) := by
  have h := placeFoldInv key d l l [] (sumPass (countPass key d l), fun _ => default)
    (by simp)
    (by rw [length_sumPass, length_countPass])
    (by
      intro j hj
      rw [cget_cnt1 key d l j hj, TCnt_nil]
      rfl)
    (by
      intro j _ i hi
      rw [TCnt_nil] at hi
      omega)
  refine ⟨h.1, ?_, h.2.2⟩
  intro j hj
  have := h.2.1 j hj
  rw [SCnt_succ]
  exact this

theorem listEqMapRange : ∀ (L : List α) (f : Nat → α) (s : Nat),
    (∀ i, i < L.length → L.getD i default = f (s + i)) →
    (List.range' s L.length).map f = L
  | [], _, _, _ => rfl
  | x :: t, f, s, h => by
    have h0 := h 0 (by simp)
    simp only [List.getD_cons_zero, Nat.add_zero] at h0
    show (List.range' s (t.length + 1)).map f = x :: t
    have hr : List.range' s (t.length + 1) = s :: List.range' (s + 1) t.length := rfl
    rw [hr]
    simp only [List.map_cons]
    rw [← h0]
    have ht := listEqMapRange t f (s + 1) (by
      intro i hi
      have := h (i + 1) (by simpa using hi)
      simpa [Nat.add_assoc, Nat.add_comm 1 i, Nat.add_left_comm] using this)
    rw [ht]

theorem range'_app : ∀ (m s k : Nat),
    List.range' s m ++ List.range' (s + m) k = List.range' s (m + k)
  | 0, s, k => by simp
  | m + 1, s, k => by
    have hr : List.range' s (m + 1) = s :: List.range' (s + 1) m := rfl
    have hr2 : List.range' s (m + 1 + k) = s :: List.range' (s + 1) (m + k) := by
      rw [show m + 1 + k = m + k + 1 by omega]
      rfl
    rw [hr, hr2, List.cons_append]
    have := range'_app m (s + 1) k
    rw [show s + (m + 1) = s + 1 + m by omega]
    rw [this]

theorem SCnt_zero (key : α → Str) (d : Nat) (l : List α) : SCnt key d l 0 = 0 := by
  unfold SCnt
  apply List.countP_eq_zero.mpr
  intro a _
  simp

/-- Bucket j of the slice, read off the placed buffer as a contiguous
segment starting at the bucket's start offset. -/
theorem buckF_mapRange (key : α → Str) (d : Nat) (l : List α) (j : Nat) (hj : j ≤ 75) :
    (List.range' (SCnt key d l j) (TCnt key d l j)).map
        (placePass key d (sumPass (countPass key d l)) l).2
      = buckF key d l j := by
  have h := (placePass_inv key d l).2.2 j hj
  have hlen := length_buckF key d l j
  rw [← hlen]
  apply listEqMapRange
  intro i hi
  rw [hlen] at hi
  exact (h i hi).symm

/-- The tail of the placed buffer from bucket j's start offset onward is
the concatenation of buckets j, j+1, ..., 75. -/
theorem placed_drop_join (key : α → Str) (d : Nat) (l : List α) :
    ∀ (k j : Nat), j + k = 76 →
      (List.range' (SCnt key d l j) (l.length - SCnt key d l j)).map
          (placePass key d (sumPass (countPass key d l)) l).2
        = ((List.range k).map (fun i => buckF key d l (j + i))).flatten := by
  intro k
  induction k with
  | zero =>
    intro j hj
    have h76 : j = 76 := by omega
    subst h76
    rw [SCnt_top]
    simp
  | succ k ih =>
    intro j hj
    have hj75 : j ≤ 75 := by omega
    have hsucc := SCnt_succ key d l j
    have hle : SCnt key d l (j + 1) ≤ l.length := SCnt_le_length key d l (j + 1)
    have harith : l.length - SCnt key d l j
        = TCnt key d l j + (l.length - SCnt key d l (j + 1)) := by omega
    rw [harith, ← range'_app (TCnt key d l j) (SCnt key d l j) (l.length - SCnt key d l (j + 1))]
    rw [List.map_append]
    rw [show SCnt key d l j + TCnt key d l j = SCnt key d l (j + 1) by omega]
    rw [ih (j + 1) (by omega), buckF_mapRange key d l j hj75]
    rw [List.range_succ_eq_map]
    simp only [List.map_cons, List.flatten_cons, List.map_map, Nat.add_zero]
    congr 1
    have hfe : ((fun i => buckF key d l (j + i)) ∘ Nat.succ)
        = fun i => buckF key d l (j + 1 + i) := by
      funext i
      simp only [Function.comp]
      rw [show j + (i + 1) = j + 1 + i by omega]
    rw [hfe]

/-- The placed buffer, as copied back into the slice, is the concatenation
of the 76 buckets in rank order. -/
theorem placed_eq_join (key : α → Str) (d : Nat) (l : List α) :
    readOut (placePass key d (sumPass (countPass key d l)) l).2 l.length
      = ((List.range 76).map (buckF key d l)).flatten := by
  unfold readOut
  rw [List.range_eq_range']
  have h := placed_drop_join key d l 76 0 (by omega)
  rw [SCnt_zero] at h
  simp only [Nat.sub_zero, Nat.zero_add] at h
  rw [h]

end RadixJoin

end StringSortTester

namespace StringSortTester

section RadixStable

variable {α : Type} [Inhabited α]

theorem length_readOut (f : Nat → α) (n : Nat) : (readOut f n).length = n := by
  unfold readOut
  rw [List.length_map, List.length_range]

theorem filter_flatten (p : α → Bool) :
    ∀ L : List (List α), (L.flatten).filter p = (L.map (List.filter p)).flatten := by
  intro L
  induction L with
  | nil => rfl
  | cons u L ih =>
    simp only [List.flatten_cons, List.filter_append, List.map_cons, ih]

theorem keyFilter_buckF (key : α → Str) (d : Nat) (k : Str) (j : Nat) :
    ∀ l : List α, keyFilter key k (buckF key d l j)
      = if (charAt k d + 1).toNat = j then keyFilter key k l else [] := by
  intro l
  induction l with
  | nil =>
    simp [keyFilter, buckF]
  | cons a t ih =>
    by_cases hk : key a = k
    · have hidx : rankIdx1 key d a = (charAt k d + 1).toNat := by
        unfold rankIdx1
        rw [hk]
      by_cases hj : (charAt k d + 1).toNat = j
      · simp only [keyFilter, buckF] at ih ⊢
        simp [List.filter_cons, hidx, hj, hk, ih]
      · simp only [keyFilter, buckF] at ih ⊢
        simp [List.filter_cons, hidx, hj, hk, ih]
    · by_cases hbj : rankIdx1 key d a = j
      · simp only [keyFilter, buckF] at ih ⊢
        simp [List.filter_cons, hbj, hk, ih]
      · simp only [keyFilter, buckF] at ih ⊢
        simp [List.filter_cons, hbj, hk, ih]

theorem flatten_if_single (X : List α) (J : Nat) :
    ∀ m : Nat, ((List.range m).map (fun j => if J = j then X else [])).flatten
      = if J < m then X else [] := by
  intro m
  induction m with
  | zero => simp
  | succ m ih =>
    rw [List.range_succ, List.map_append, List.flatten_append, ih]
    by_cases h1 : J < m
    · rw [if_pos h1, if_pos (by omega)]
      simp only [List.map_cons, List.map_nil, List.flatten_cons, List.flatten_nil]
      rw [if_neg (by omega)]
      simp
    · by_cases h2 : J = m
      · subst h2
        rw [if_neg h1, if_pos (by omega)]
        simp
      · rw [if_neg h1, if_neg (by omega)]
        simp only [List.map_cons, List.map_nil, List.flatten_cons, List.flatten_nil]
        rw [if_neg (by omega)]
        simp

/-- Every slice element with key k lands in bucket (charAt k d + 1), so
the stable bucket decomposition preserves the k-subsequence. -/
theorem keyFilter_placed (key : α → Str) (d : Nat) (l : List α) (k : Str) :
    keyFilter key k (readOut (placePass key d (sumPass (countPass key d l)) l).2 l.length)
      = keyFilter key k l := by
  rw [placed_eq_join]
  show List.filter _ _ = _
  rw [filter_flatten, List.map_map]
  have hmc : (List.filter (fun a => decide (key a = k))) ∘ (buckF key d l)
      = fun j => if (charAt k d + 1).toNat = j then keyFilter key k l else [] := by
    funext j
    simp only [Function.comp]
    exact keyFilter_buckF key d k j l
  rw [hmc, flatten_if_single]
  have hJ1 := charAt_lt k d
  have hJ2 := charAt_ge k d
  rw [if_pos (by omega)]

end RadixStable

end StringSortTester

namespace StringSortTester

section RadixFold

variable {α : Type} [Inhabited α]

theorem drop_len_append : ∀ (u v : List α), (u ++ v).drop u.length = v
  | [], v => rfl
  | x :: u, v => by
    simp only [List.cons_append, List.length_cons, List.drop_succ_cons]
    exact drop_len_append u v

theorem take_len_append : ∀ (u v : List α), (u ++ v).take u.length = u
  | [], v => rfl
  | x :: u, v => by
    simp only [List.cons_append, List.length_cons, List.take_succ_cons]
    rw [take_len_append u v]

theorem keyFilter_append (key : α → Str) (k : Str) (u v : List α) :
    keyFilter key k (u ++ v) = keyFilter key k u ++ keyFilter key k v := by
  unfold keyFilter
  rw [List.filter_append]

theorem placedDropEq (key : α → Str) (d : Nat) (l : List α) (j : Nat) :
    (readOut (placePass key d (sumPass (countPass key d l)) l).2 l.length).drop
        (SCnt key d l j)
      = (List.range' (SCnt key d l j) (l.length - SCnt key d l j)).map
          (placePass key d (sumPass (countPass key d l)) l).2 := by
  unfold readOut
  rw [List.range_eq_range']
  have hle : SCnt key d l j ≤ l.length := SCnt_le_length key d l j
  have hsplit : List.range' 0 l.length
      = List.range' 0 (SCnt key d l j)
        ++ List.range' (SCnt key d l j) (l.length - SCnt key d l j) := by
    have h := range'_app (SCnt key d l j) 0 (l.length - SCnt key d l j)
    rw [Nat.zero_add] at h
    rw [h, show SCnt key d l j + (l.length - SCnt key d l j) = l.length by omega]
  rw [hsplit, List.map_append]
  have hAl : ((List.range' 0 (SCnt key d l j)).map
      (placePass key d (sumPass (countPass key d l)) l).2).length = SCnt key d l j := by
    rw [List.length_map, List.length_range']
  have hd := drop_len_append
    ((List.range' 0 (SCnt key d l j)).map (placePass key d (sumPass (countPass key d l)) l).2)
    ((List.range' (SCnt key d l j) (l.length - SCnt key d l j)).map
      (placePass key d (sumPass (countPass key d l)) l).2)
  rw [hAl] at hd
  exact hd

theorem placedDropBucket (key : α → Str) (d : Nat) (l : List α) (j : Nat) (hj : j ≤ 75) :
    (readOut (placePass key d (sumPass (countPass key d l)) l).2 l.length).drop
        (SCnt key d l j)
      = buckF key d l j
        ++ (readOut (placePass key d (sumPass (countPass key d l)) l).2 l.length).drop
            (SCnt key d l (j + 1)) := by
  rw [placedDropEq key d l j, placedDropEq key d l (j + 1)]
  have hsucc := SCnt_succ key d l j
  have hle : SCnt key d l (j + 1) ≤ l.length := SCnt_le_length key d l (j + 1)
  have harith : l.length - SCnt key d l j
      = TCnt key d l j + (l.length - SCnt key d l (j + 1)) := by omega
  rw [harith, ← range'_app (TCnt key d l j) (SCnt key d l j)
    (l.length - SCnt key d l (j + 1))]
  rw [List.map_append, buckF_mapRange key d l j hj]
  rw [show SCnt key d l j + TCnt key d l j = SCnt key d l (j + 1) by omega]

theorem segBucket (key : α → Str) (d : Nat) (l : List α) (j : Nat) (hj : j ≤ 75) :
    ((readOut (placePass key d (sumPass (countPass key d l)) l).2 l.length).drop
        (SCnt key d l j)).take (TCnt key d l j)
      = buckF key d l j := by
  rw [placedDropBucket key d l j hj, ← length_buckF key d l j, take_len_append]

/-- Invariant of the recursion loop: provided the recursive call preserves
length and every key-subsequence of its sub-slice, the whole loop
preserves length and every key-subsequence of the placed sequence. -/
theorem radixFoldStable (key : α → Str) (d : Nat) (l : List α)
    (go : List α → RadixOut α)
    (hgoLen : ∀ s : List α, (go s).arr.length = s.length)
    (hgoF : ∀ (s : List α) (k : Str), keyFilter key k (go s).arr = keyFilter key k s) :
    ∀ (m : Nat), ∀ (r : Nat), r + m ≤ 75 →
      ∀ acc : RadixOut α,
        acc.arr.length = l.length →
        acc.arr.drop (SCnt key d l (r + 1))
          = (readOut (placePass key d (sumPass (countPass key d l)) l).2 l.length).drop
              (SCnt key d l (r + 1)) →
        (∀ k, keyFilter key k acc.arr
          = keyFilter key k
              (readOut (placePass key d (sumPass (countPass key d l)) l).2 l.length)) →
        (((List.range' r m).foldl
            (radixStep (placePass key d (sumPass (countPass key d l)) l).1 go) acc).arr.length
            = l.length ∧
          ∀ k, keyFilter key k
              (((List.range' r m).foldl
                (radixStep (placePass key d (sumPass (countPass key d l)) l).1 go) acc).arr)
            = keyFilter key k
                (readOut (placePass key d (sumPass (countPass key d l)) l).2 l.length)) := by
  intro m
  induction m with
  | zero =>
    intro r _ acc hL _ hF
    exact ⟨hL, hF⟩
  | succ m ih =>
    intro r hrm acc hL hD hF
    have hr75 : r + 1 ≤ 75 := by omega
    have hrange : List.range' r (m + 1) = r :: List.range' (r + 1) m := rfl
    rw [hrange]
    simp only [List.foldl_cons]
    have hc1 : cget (placePass key d (sumPass (countPass key d l)) l).1 r
        = SCnt key d l (r + 1) := (placePass_inv key d l).2.1 r (by omega)
    have hc2 : cget (placePass key d (sumPass (countPass key d l)) l).1 (r + 1)
        = SCnt key d l (r + 2) := (placePass_inv key d l).2.1 (r + 1) (by omega)
    have hSsucc2 : SCnt key d l (r + 2) = SCnt key d l (r + 1) + TCnt key d l (r + 1) :=
      SCnt_succ key d l (r + 1)
    have hSle : SCnt key d l (r + 2) ≤ l.length := SCnt_le_length key d l (r + 2)
    have hS1le : SCnt key d l (r + 1) ≤ l.length := SCnt_le_length key d l (r + 1)
    have hD2 : acc.arr.drop (SCnt key d l (r + 2))
        = (readOut (placePass key d (sumPass (countPass key d l)) l).2 l.length).drop
            (SCnt key d l (r + 2)) := by
      have hcongr := congrArg (List.drop (TCnt key d l (r + 1))) hD
      rw [List.drop_drop, List.drop_drop,
        show SCnt key d l (r + 1) + TCnt key d l (r + 1) = SCnt key d l (r + 2) by omega]
        at hcongr
      exact hcongr
    have hlb := length_buckF key d l (r + 1)
    have hstep_arr :
        (radixStep (placePass key d (sumPass (countPass key d l)) l).1 go acc r).arr
          = acc.arr.take (SCnt key d l (r + 1)) ++ (go (buckF key d l (r + 1))).arr
            ++ acc.arr.drop (SCnt key d l (r + 2)) := by
      unfold radixStep
      simp only []
      rw [hc1, hc2]
      rw [show SCnt key d l (r + 1) + (SCnt key d l (r + 2) - SCnt key d l (r + 1))
        = SCnt key d l (r + 2) by omega]
      rw [show SCnt key d l (r + 2) - SCnt key d l (r + 1) = TCnt key d l (r + 1) by omega]
      rw [hD, segBucket key d l (r + 1) hr75]
    have hgl : (go (buckF key d l (r + 1))).arr.length = TCnt key d l (r + 1) := by
      rw [hgoLen, hlb]
    have hltake : (acc.arr.take (SCnt key d l (r + 1))).length = SCnt key d l (r + 1) := by
      rw [List.length_take]
      omega
    have hnewlen :
        (radixStep (placePass key d (sumPass (countPass key d l)) l).1 go acc r).arr.length
          = l.length := by
      rw [hstep_arr]
      simp only [List.length_append, hltake, hgl, List.length_drop, hL]
      omega
    have hfrontlen : (acc.arr.take (SCnt key d l (r + 1))
        ++ (go (buckF key d l (r + 1))).arr).length = SCnt key d l (r + 2) := by
      rw [List.length_append, hltake, hgl]
      omega
    have hnewdrop :
        (radixStep (placePass key d (sumPass (countPass key d l)) l).1 go acc r).arr.drop
            (SCnt key d l (r + 2))
          = (readOut (placePass key d (sumPass (countPass key d l)) l).2 l.length).drop
              (SCnt key d l (r + 2)) := by
      rw [hstep_arr, ← hfrontlen, drop_len_append, hfrontlen, hD2]
    have hdecomp : acc.arr
        = acc.arr.take (SCnt key d l (r + 1)) ++ buckF key d l (r + 1)
          ++ acc.arr.drop (SCnt key d l (r + 2)) := by
      conv_lhs => rw [← List.take_append_drop (SCnt key d l (r + 1)) acc.arr]
      rw [hD, placedDropBucket key d l (r + 1) hr75, ← hD2, List.append_assoc]
    have hnewF : ∀ k,
        keyFilter key k
            (radixStep (placePass key d (sumPass (countPass key d l)) l).1 go acc r).arr
          = keyFilter key k
              (readOut (placePass key d (sumPass (countPass key d l)) l).2 l.length) := by
      intro k
      rw [hstep_arr, keyFilter_append, keyFilter_append, hgoF (buckF key d l (r + 1)) k]
      rw [← hF k]
      conv_rhs => rw [hdecomp]
      rw [keyFilter_append, keyFilter_append]
    exact ih (r + 1) (by omega) _ hnewlen hnewdrop hnewF

/-- MsdRadixPure preserves the length of the slice and, for every key k,
the subsequence of elements whose key is k — i.e. it is stable. -/
theorem msdPureGo_stable (key : α → Str) :
    ∀ (fuel : Nat) (l : List α) (d : Nat),
      (msdPureGo key fuel l d).arr.length = l.length ∧
      (∀ k, keyFilter key k (msdPureGo key fuel l d).arr = keyFilter key k l) := by
  intro fuel
  induction fuel with
  | zero =>
    intro l d
    exact ⟨rfl, fun _ => rfl⟩
  | succ fuel ih =>
    intro l d
    by_cases hn : l.length ≤ 1
    · have he : msdPureGo key (fuel + 1) l d = ⟨l, 0, []⟩ := by
        rw [msdPureGo, if_pos hn]
      rw [he]
      exact ⟨rfl, fun _ => rfl⟩
    · have he : msdPureGo key (fuel + 1) l d
          = (List.range R).foldl
              (radixStep (placePass key d (sumPass (countPass key d l)) l).1
                (fun s => msdPureGo key fuel s (d + 1)))
              ⟨readOut (placePass key d (sumPass (countPass key d l)) l).2 l.length,
                l.length, levelAcc key d l⟩ := by
        rw [msdPureGo, if_neg hn]
      rw [he, List.range_eq_range']
      have hfold := radixFoldStable key d l (fun s => msdPureGo key fuel s (d + 1))
        (fun s => (ih s (d + 1)).1) (fun s k => (ih s (d + 1)).2 k)
        R 0 (by rw [show R = 74 from rfl]; omega)
        ⟨readOut (placePass key d (sumPass (countPass key d l)) l).2 l.length,
          l.length, levelAcc key d l⟩
        (length_readOut _ _) rfl (fun _ => rfl)
      refine ⟨hfold.1, fun k => ?_⟩
      rw [hfold.2 k, keyFilter_placed]

end RadixFold

end StringSortTester

namespace StringSortTester

/-- Claim C5 (amended): PrefixMergeSort is stable for every tagged input:
for every prior counter state and every key value, the subsequence of
elements bearing that key (the spec's "tagged copies" of equal strings,
in input order) is returned unchanged. MsdRadixPure is stable on every
input whose execution keeps all counting-array accesses within the
array's R + 2 entries; inputs whose access stream leaves the array are
out of scope, since there the C++ performs the out-of-bounds access of
C2 and guarantees nothing. MsdRadixCutoff is not stable (see the
counterexample). -/
theorem C5_stable_merge_pure :
    ∀ (l : List (Str × Nat)) (k : Str) (c0 : Nat),
      keyFilter Prod.fst k (run Prod.fst Algo.StdMergeLCP l c0).1
        = keyFilter Prod.fst k l ∧
      ((∀ i ∈ radixAcc Prod.fst Algo.MsdRadixPure l, i < R + 2) →
        keyFilter Prod.fst k (run Prod.fst Algo.MsdRadixPure l c0).1
          = keyFilter Prod.fst k l) := by
  intro l k c0
  constructor
  · show keyFilter Prod.fst k (mergeSortLCP Prod.fst l).1 = keyFilter Prod.fst k l
    exact mergeSortLCP_stable Prod.fst k l
  · intro _
    show keyFilter Prod.fst k (msdRadixSortPure Prod.fst l).arr = keyFilter Prod.fst k l
    exact (msdPureGo_stable Prod.fst (radixFuel Prod.fst l) l 0).2 k

/-- Witness for C5_stable_merge_pure on a concrete tagged input with
distinguishable duplicates, discharging the in-bounds hypothesis of the
MsdRadixPure conjunct by evaluation of the access stream. -/
theorem C5_witness :
    (∀ i ∈ radixAcc Prod.fst Algo.MsdRadixPure [(chs "a", 1), (chs "a", 2)], i < R + 2) ∧
    keyFilter Prod.fst (chs "a")
        (run Prod.fst Algo.MsdRadixPure [(chs "a", 1), (chs "a", 2)] 0).1
      = keyFilter Prod.fst (chs "a") [(chs "a", 1), (chs "a", 2)] :=
  ⟨by decide,
    (C5_stable_merge_pure [(chs "a", 1), (chs "a", 2)] (chs "a") 0).2 (by decide)⟩

end StringSortTester
